import Mathlib

/-!
Verification of the font fallback / text layout / glyph drawing module
(`src/font.rs` of the `silicon` repository).

Embedding conventions:
* `f32` values (sizes, metrics, coverage fractions) are embedded as `ℚ`,
  with `f32::ceil` / `f32::round` embedded as exact rational ceiling /
  round-half-away-from-zero.  Floating-point rounding error is not modelled.
* `u32` / `i32` values are embedded as `ℕ` / `ℤ`; the `as` casts that the
  source performs are modelled explicitly (`u32_as_i32`, `i32_as_u32`,
  `f32ceil_as_u32`, `f32round_as_i32`, saturating or wrapping exactly as
  Rust casts do).  Arithmetic overflow of `+` on `u32`/`i32` (which would
  panic in a debug build) is not modelled: additions are exact.
* A Rust panic (`unwrap` on `None`, indexing `self.0[0]` into an empty
  vector, `.max().unwrap()` on an empty iterator) is modelled by the
  functions returning `Option` with `none` for the panicking run.
* The external `font_kit::font::Font` capability is an abstract record of
  the operations the module uses (`glyph_for_char`, `metrics`, `advance`,
  `raster_bounds`, `rasterize_glyph`); `raster_bounds` and `advance` are
  total because the module immediately `unwrap`s their results.
* The `HashMap<FontStyle, Font>` of an `ImageFont` is embedded as the
  lookup function `FontStyle → Option Font`.
* `GenericImage` is embedded as a total pixel map `ℕ → ℕ → P` for an
  abstract pixel type `P`, and `imageproc::pixelops::weighted_sum` as an
  abstract blending parameter.  `draw_text_mut` additionally returns the
  ordered trace of `put_pixel` calls it performed, so that theorems can
  speak about every written pixel.
-/

/-- Rust `u32 as i32` (wrapping conversion); `4294967296 = 2^32`,
`2147483648 = 2^31`. -/
def u32_as_i32 (n : ℕ) : ℤ :=
  if n % 4294967296 < 2147483648 then ((n % 4294967296 : ℕ) : ℤ)
  else ((n % 4294967296 : ℕ) : ℤ) - 4294967296

/-- Rust `i32 as u32` (wrapping conversion). -/
def i32_as_u32 (z : ℤ) : ℕ :=
  (z % 4294967296).toNat

/-- Rust `x.ceil() as u32` on an `f32`: exact ceiling, then the saturating
float-to-integer cast (negative values to 0, values above `u32::MAX` to
`u32::MAX = 4294967295`). -/
def f32ceil_as_u32 (q : ℚ) : ℕ :=
  (min (max ⌈q⌉ 0) 4294967295).toNat

/-- Rust `f32::round`: round half away from zero. -/
def roundHalfAway (q : ℚ) : ℤ :=
  if 0 ≤ q then ⌊q + 1 / 2⌋ else ⌈q - 1 / 2⌉

/-- Rust `x.round() as i32` on an `f32`: round half away from zero, then
the saturating cast into `i32` range (`-2147483648 .. 2147483647`). -/
def f32round_as_i32 (q : ℚ) : ℤ :=
  max (-2147483648) (min (roundHalfAway q) 2147483647)

/-- `enum FontStyle { REGULAR, ITALIC, BOLD, BOLDITALIC }`. -/
inductive FontStyle where
  | REGULAR
  | ITALIC
  | BOLD
  | BOLDITALIC
deriving DecidableEq, Repr

/-- The ascent / descent / units-per-em part of `font_kit`'s
`Font::metrics()` (the only metrics fields the module reads). -/
structure FontMetrics where
  ascent : ℚ
  descent : ℚ
  units_per_em : ℕ

/-- `euclid` `Rect<i32>`: `origin.x`, `origin.y`, `size.width`,
`size.height`. -/
structure RasterRect where
  origin_x : ℤ
  origin_y : ℤ
  width : ℤ
  height : ℤ
deriving DecidableEq, Repr

/-- The external `font_kit::font::Font` capability, restricted to the
operations `src/font.rs` uses.  `advance` returns the (x, y) advance vector
in font units; `raster_bounds id size` is the `Rect<i32>` returned for the
identity transform, zero origin, no hinting, grayscale antialiasing (the
only arguments the module ever passes); `rasterize_glyph id size origin col
row` is the `A8` coverage byte the rasterizer leaves at column `col` of row
`row` of the canvas. -/
structure Font where
  glyph_for_char : Char → Option ℕ
  metrics : FontMetrics
  advance : ℕ → ℚ × ℚ
  raster_bounds : ℕ → ℚ → RasterRect
  rasterize_glyph : ℕ → ℚ → ℚ × ℚ → ℕ → ℕ → ℕ

/-- `struct ImageFont { fonts: HashMap<FontStyle, Font>, size: f32 }`;
the hash map is embedded as its lookup function. -/
structure ImageFont where
  fonts : FontStyle → Option Font
  size : ℚ

/-- `ImageFont::get_by_style`: the font mapped at `style`, falling back to
the `REGULAR` font when `style` is absent; `none` models the panic of the
inner `unwrap` when `REGULAR` is absent as well. -/
def ImageFont.get_by_style (f : ImageFont) (style : FontStyle) : Option Font :=
  match f.fonts style with
  | some font => some font
  | none => f.fonts FontStyle.REGULAR

/-- `ImageFont::get_regular`: `none` models the `unwrap` panic when the
`REGULAR` entry is absent. -/
def ImageFont.get_regular (f : ImageFont) : Option Font :=
  f.fonts FontStyle.REGULAR

/-- `ImageFont::get_font_height`:
`((ascent - descent) / units_per_em * size).ceil() as u32` over the
`REGULAR` font's metrics. -/
def ImageFont.get_font_height (f : ImageFont) : Option ℕ :=
  (f.get_regular).map fun font =>
    f32ceil_as_u32
      ((font.metrics.ascent - font.metrics.descent) /
        (font.metrics.units_per_em : ℚ) * f.size)

/-- `crate::error::FontError` (defined outside this module); its structure
is irrelevant here, only its presence as the error type of
`FontCollection::new`. -/
structure FontError where
  message : String

/-- `struct FontCollection(Vec<ImageFont>)`. -/
structure FontCollection where
  fonts : List ImageFont

/-- `FontCollection::new`: `ImageFont::new` performs external font-store
I/O, so it enters the model as the oracle `load`; the loop pushes each
successfully loaded font and merely logs (`eprintln!`) each failure, and
the function unconditionally ends in `Ok`. -/
def FontCollection.new (load : String → ℚ → Except FontError ImageFont)
    (font_list : List (String × ℚ)) : Except FontError FontCollection :=
  let fonts := font_list.foldl
    (fun fonts entry =>
      match load entry.1 entry.2 with
      | Except.ok font => fonts ++ [font]
      | Except.error _ => fonts)
    []
  Except.ok ⟨fonts⟩

/-- The loop body of `FontCollection::glyph_for_char` over the remaining
fonts of the chain.  Outer `none` models a panic inside `get_by_style`;
`some none` is the "no font found" result (after the warning print). -/
def glyphForCharAux (fonts : List ImageFont) (c : Char) (style : FontStyle) :
    Option (Option (ℕ × ImageFont × Font)) :=
  match fonts with
  | [] => some none
  | font :: rest =>
    match font.get_by_style style with
    | none => none
    | some result =>
      match result.glyph_for_char c with
      | some id => some (some (id, font, result))
      | none => glyphForCharAux rest c style

/-- `FontCollection::glyph_for_char`. -/
def FontCollection.glyph_for_char (col : FontCollection) (c : Char)
    (style : FontStyle) : Option (Option (ℕ × ImageFont × Font)) :=
  glyphForCharAux col.fonts c style

/-- The sequence of per-font heights visited by
`self.0.iter().map(|font| font.get_font_height())`; `none` models the panic
of a font set whose `REGULAR` entry is absent. -/
def fontHeights : List ImageFont → Option (List ℕ)
  | [] => some []
  | f :: rest =>
    match f.get_font_height, fontHeights rest with
    | some h, some hs => some (h :: hs)
    | _, _ => none

/-- `FontCollection::get_font_height`: `.max().unwrap()` over the per-font
heights; `none` models the `unwrap` panic on an empty chain (and the panic
of a `REGULAR`-less font set). -/
def FontCollection.get_font_height (col : FontCollection) : Option ℕ :=
  (fontHeights col.fonts).bind List.max?

/-- `FontCollection::get_glyph_width`:
`(advance / units_per_em * size).x.ceil() as u32`. -/
def FontCollection.get_glyph_width (font : Font) (id : ℕ) (size : ℚ) : ℕ :=
  f32ceil_as_u32 ((font.advance id).1 / (font.metrics.units_per_em : ℚ) * size)

/-- `struct PositionedGlyph`; `position_x`/`position_y` are the two
components of the `Point2D<i32>` `position`. -/
structure PositionedGlyph where
  id : ℕ
  font : Font
  size : ℚ
  position_x : ℤ
  position_y : ℤ
  raster_rect : RasterRect

/-- The body of the closure `layout` passes to `filter_map`, as one step
of the character fold: the cursor `acc.1` and the glyphs collected so far
`acc.2`.  Outer `none` models a panic inside `glyph_for_char`. -/
def layoutStep (col : FontCollection) (style : FontStyle) (height : ℕ)
    (acc : ℕ × List PositionedGlyph) (c : Char) :
    Option (ℕ × List PositionedGlyph) :=
  match col.glyph_for_char c style with
  | none => none
  | some none => some acc
  | some (some (id, imfont, font)) =>
    let raster_rect := font.raster_bounds id imfont.size
    let x := u32_as_i32 acc.1 + raster_rect.origin_x
    let y := u32_as_i32 height - raster_rect.height - raster_rect.origin_y
    some (acc.1 + FontCollection.get_glyph_width font id imfont.size,
      acc.2 ++ [⟨id, font, imfont.size, x, y, raster_rect⟩])

/-- `FontCollection::layout`: the chain height is computed (and can panic)
before any character is examined; the characters are then folded in
textual order. -/
def FontCollection.layout (col : FontCollection) (text : List Char)
    (style : FontStyle) : Option (List PositionedGlyph × ℕ) := do
  let height ← col.get_font_height
  let r ← text.foldlM (layoutStep col style height) (0, [])
  pure (r.2, r.1)

/-- `FontCollection::get_text_len`. -/
def FontCollection.get_text_len (col : FontCollection) (text : List Char) :
    Option ℕ :=
  (col.layout text FontStyle.REGULAR).map Prod.snd

/-- The observable behaviour of one `PositionedGlyph::draw` call: whether
`rasterize_glyph` was invoked, and the ordered list of `(px, py, val)`
arguments passed to the callback `o`. -/
structure GlyphDraw where
  rasterize_called : Bool
  plots : List (ℤ × ℤ × ℚ)

/-- `PositionedGlyph::draw`.  The canvas is `Canvas::new` of
`raster_rect.size.to_u32()` (a wrapping `i32 as u32` cast); the glyph is
rasterized unless that canvas size is `(0, 0)` (the whitespace case); the
pixel loop then walks rows `height - 1` down to `0` and columns `0` up to
`width - 1` of the `i32` rectangle, reading the coverage byte (all canvas
bytes are `0` when `rasterize_glyph` was not invoked) and reporting
`(position.x + x, position.y + y + offset, byte / 255)`. -/
def PositionedGlyph.draw (g : PositionedGlyph) (offset : ℤ) : GlyphDraw :=
  let canvas_width := i32_as_u32 g.raster_rect.width
  let canvas_height := i32_as_u32 g.raster_rect.height
  let origin : ℚ × ℚ :=
    (-(g.raster_rect.origin_x : ℚ),
      ((g.raster_rect.height + g.raster_rect.origin_y : ℤ) : ℚ))
  let rasterized := !(canvas_width == 0 && canvas_height == 0)
  let coverage : ℕ → ℕ → ℕ := fun col row =>
    if rasterized then g.font.rasterize_glyph g.id g.size origin col row else 0
  { rasterize_called := rasterized
    plots :=
      ((List.range g.raster_rect.height.toNat).reverse).flatMap fun (row : ℕ) =>
        (List.range g.raster_rect.width.toNat).map fun (col : ℕ) =>
          (g.position_x + (col : ℤ), g.position_y + (row : ℤ) + offset,
            (coverage col row : ℚ) / 255) }

/-- A `GenericImage` with pixel type `P`, embedded as a total pixel map
(bounds checking of `get_pixel`/`put_pixel` is outside the model; claims
about out-of-range coordinates are stated on the coordinate values
themselves). -/
structure Image (P : Type) where
  pixel : ℕ → ℕ → P

/-- `GenericImage::put_pixel`. -/
def Image.put_pixel {P : Type} (img : Image P) (x y : ℕ) (p : P) : Image P :=
  ⟨fun a b => if a = x ∧ b = y then p else img.pixel a b⟩

/-- `std::f32::EPSILON = 2 ^ (-23)`. -/
def f32Epsilon : ℚ := 1 / 8388608

/-- The plot callback `draw_text_mut` passes to `PositionedGlyph::draw`,
as one fold step over the reported plots: skip when the coverage value is
at most `f32::EPSILON`, otherwise cast `(px + x as i32, py + y as i32)` to
`u32` (wrapping) and read-blend-write that pixel (recording the write in
the trace). -/
def drawPlotStep {P : Type} (weighted_sum : P → P → ℚ → ℚ → P) (color : P)
    (x y : ℕ) (acc2 : Image P × List (ℕ × ℕ × P)) (plot : ℤ × ℤ × ℚ) :
    Image P × List (ℕ × ℕ × P) :=
  if plot.2.2 ≤ f32Epsilon then acc2
  else
    let px := i32_as_u32 (plot.1 + u32_as_i32 x)
    let py := i32_as_u32 (plot.2.1 + u32_as_i32 y)
    let pixel := acc2.1.pixel px py
    let weighted_color := weighted_sum pixel color (1 - plot.2.2) plot.2.2
    (acc2.1.put_pixel px py weighted_color, acc2.2 ++ [(px, py, weighted_color)])

/-- One iteration of `draw_text_mut`'s `for glyph in glyphs` loop:
`glyph.draw(offset, ...)` with the plot callback above. -/
def drawGlyphStep {P : Type} (weighted_sum : P → P → ℚ → ℚ → P) (color : P)
    (x y : ℕ) (offset : ℤ) (acc : Image P × List (ℕ × ℕ × P))
    (glyph : PositionedGlyph) : Image P × List (ℕ × ℕ × P) :=
  (glyph.draw offset).plots.foldl (drawPlotStep weighted_sum color x y) acc

/-- `FontCollection::draw_text_mut`.  `weighted_sum` abstracts
`imageproc::pixelops::weighted_sum` over the abstract pixel type `P`.
Returns `none` for the panicking runs (`self.0[0]` on an empty chain,
`get_regular().unwrap()` without a `REGULAR` entry, or a panic inside
`layout`), and otherwise the final image, the ordered trace of `put_pixel`
calls as `(x, y, written pixel)`, and the returned width. -/
def FontCollection.draw_text_mut {P : Type} (weighted_sum : P → P → ℚ → ℚ → P)
    (col : FontCollection) (image : Image P) (color : P) (x y : ℕ)
    (style : FontStyle) (text : List Char) :
    Option (Image P × List (ℕ × ℕ × P) × ℕ) := do
  let first ← col.fonts.head?
  let font0 ← first.get_regular
  let metrics := font0.metrics
  let offset :=
    f32round_as_i32 (metrics.descent / (metrics.units_per_em : ℚ) * first.size)
  let (glyphs, width) ← col.layout text style
  let final := glyphs.foldl (drawGlyphStep weighted_sum color x y offset)
    (image, ([] : List (ℕ × ℕ × P)))
  pure (final.1, final.2, width)

/-! ### Evaluation helpers for the cast functions -/

theorem u32_as_i32_small (n : ℕ) (h : n < 2147483648) :
    u32_as_i32 n = (n : ℤ) := by
  unfold u32_as_i32
  rw [Nat.mod_eq_of_lt (lt_trans h (by norm_num))]
  rw [if_pos h]

theorem f32ceil_as_u32_eval (q : ℚ) (n : ℕ) (hle : n ≤ 4294967295)
    (hz : ⌈q⌉ = (n : ℤ)) : f32ceil_as_u32 q = n := by
  unfold f32ceil_as_u32
  rw [hz, max_eq_left (by positivity), min_eq_left (by exact_mod_cast hle)]
  exact Int.toNat_natCast n

/-! ### A concrete one-font chain used as a witness fixture

`testFont` maps only the character `a` (to glyph id 1), reports ascent 800,
descent −200, 1000 units per em, a constant advance of 600 font units and
a constant 3×4 raster box at the origin, and full coverage everywhere.
`testImageFont` holds it as the `REGULAR` entry at size 20. -/

def testRect : RasterRect := ⟨0, 0, 3, 4⟩

def testFont : Font where
  glyph_for_char := fun c => if c = 'a' then some 1 else none
  metrics := ⟨800, -200, 1000⟩
  advance := fun _ => (600, 0)
  raster_bounds := fun _ _ => testRect
  rasterize_glyph := fun _ _ _ _ _ => 255

def testImageFont : ImageFont where
  fonts := fun s => if s = FontStyle.REGULAR then some testFont else none
  size := 20

def testCollection : FontCollection := ⟨[testImageFont]⟩

theorem testImageFont_height : testImageFont.get_font_height = some 20 := by
  show some (f32ceil_as_u32 ((800 - (-200 : ℚ)) / 1000 * 20)) = some 20
  rw [f32ceil_as_u32_eval _ 20 (by norm_num)
    (by rw [Int.ceil_eq_iff] ; norm_num)]

theorem testCollection_height : testCollection.get_font_height = some 20 := by
  show (fontHeights [testImageFont]).bind List.max? = some 20
  rw [show fontHeights [testImageFont] = some [20] by
    simp [fontHeights, testImageFont_height]]
  rfl

theorem testCollection_glyph_a :
    testCollection.glyph_for_char 'a' FontStyle.REGULAR =
      some (some (1, testImageFont, testFont)) := rfl

theorem testCollection_glyph_z :
    testCollection.glyph_for_char 'z' FontStyle.REGULAR = some none := rfl

theorem testFont_glyph_width :
    FontCollection.get_glyph_width testFont 1 20 = 12 := by
  unfold FontCollection.get_glyph_width
  exact f32ceil_as_u32_eval _ 12 (by norm_num)
    (by show ⌈(600 / (1000 : ℚ) * 20)⌉ = 12; rw [Int.ceil_eq_iff] ; norm_num)

/-- The single positioned glyph `layout` produces for the text `a` on
`testCollection`: cursor 0, so `x = 0 + 0`, `y = 20 - 4 - 0 = 16`. -/
def testGlyph : PositionedGlyph :=
  ⟨1, testFont, 20, 0, 16, testRect⟩

theorem testLayout :
    testCollection.layout ['a'] FontStyle.REGULAR = some ([testGlyph], 12) := by
  unfold FontCollection.layout
  rw [testCollection_height]
  show (List.foldlM (layoutStep testCollection FontStyle.REGULAR 20) (0, []) ['a']).bind
    (fun r => some (r.2, r.1)) = some ([testGlyph], 12)
  have hstep : layoutStep testCollection FontStyle.REGULAR 20 (0, []) 'a' =
      some (12, [testGlyph]) := by
    unfold layoutStep
    rw [testCollection_glyph_a]
    show some (0 + FontCollection.get_glyph_width testFont 1 20, _) = _
    rw [testFont_glyph_width]
    rfl
  show (layoutStep testCollection FontStyle.REGULAR 20 (0, []) 'a').bind _ = _
  rw [hstep]
  rfl

/-! ### C1 -/

/-- C1: `get_text_len` returns exactly the total-advance-width component
of `layout(text, REGULAR)`: whenever that layout call returns total width
`w` (i.e. does not panic), `get_text_len` returns exactly `w`; the two can
never disagree. -/
theorem C1_get_text_len_agrees_with_layout (col : FontCollection)
    (text : List Char) (w : ℕ)
    (h : (col.layout text FontStyle.REGULAR).map Prod.snd = some w) :
    col.get_text_len text = some w := h

/-- C1 witness: on the concrete one-font chain, `layout` of the text `a`
has total advance width 12, and `get_text_len` returns exactly 12. -/
theorem C1_witness : testCollection.get_text_len ['a'] = some 12 :=
  C1_get_text_len_agrees_with_layout testCollection ['a'] 12
    (by rw [testLayout] ; rfl)

/-! ### C2 -/

/-- The accumulator form of the loop of `FontCollection::new`: the final
font vector is the accumulator followed by the successfully loaded fonts
in list order. -/
theorem new_foldl_eq (load : String → ℚ → Except FontError ImageFont) :
    ∀ (l : List (String × ℚ)) (acc : List ImageFont),
      l.foldl
        (fun fonts entry =>
          match load entry.1 entry.2 with
          | Except.ok font => fonts ++ [font]
          | Except.error _ => fonts)
        acc =
      acc ++ l.filterMap (fun entry => (load entry.1 entry.2).toOption) := by
  intro l
  induction l with
  | nil => intro acc; simp
  | cons a l ih =>
    intro acc
    rw [List.foldl_cons, List.filterMap_cons]
    cases h : load a.1 a.2 with
    | ok font => rw [ih]; simp [Except.toOption]
    | error e => rw [ih]; simp [Except.toOption]

/-- C2: `FontCollection::new` never returns an error: for every load
outcome and every `(name, size)` list it returns `Ok` of the chain holding
exactly the successfully loaded entries (failures are dropped and the loop
continues); in particular a list where every entry fails yields
`Ok` of a chain with zero fonts. -/
theorem C2_new_never_fails (load : String → ℚ → Except FontError ImageFont)
    (font_list : List (String × ℚ)) :
    FontCollection.new load font_list =
      Except.ok
        ⟨font_list.filterMap (fun entry => (load entry.1 entry.2).toOption)⟩ ∧
    ((∀ entry ∈ font_list, ∃ e, load entry.1 entry.2 = Except.error e) →
      FontCollection.new load font_list = Except.ok ⟨[]⟩) := by
  constructor
  · unfold FontCollection.new
    rw [new_foldl_eq]
    rfl
  · intro hfail
    unfold FontCollection.new
    rw [new_foldl_eq]
    have hnil :
        font_list.filterMap (fun entry => (load entry.1 entry.2).toOption) =
          [] := by
      rw [List.filterMap_eq_nil_iff]
      intro entry hmem
      obtain ⟨e, he⟩ := hfail entry hmem
      rw [he]
      rfl
    rw [hnil]
    rfl

def failLoad : String → ℚ → Except FontError ImageFont :=
  fun _ _ => Except.error ⟨"font load failure"⟩

/-- C2 witness: with a loader that fails on every entry, `new` still
returns `Ok`, of the empty chain. -/
theorem C2_witness :
    FontCollection.new failLoad [("Courier", 20)] = Except.ok ⟨[]⟩ :=
  (C2_new_never_fails failLoad [("Courier", 20)]).2
    (fun _ _ => ⟨⟨"font load failure"⟩, rfl⟩)

/-! ### C9 -/

def emptyCollection : FontCollection := ⟨[]⟩

/-- C9: on a chain holding zero fonts (a value construction can produce),
`get_font_height`, `layout` and `get_text_len` panic (modelled `none`) for
every input text and style — the empty string included — because the chain
height `.max().unwrap()` runs before any character is examined; and
`draw_text_mut` panics at the `self.0[0]` access, likewise before looking
at the text. -/
theorem C9_empty_chain_panics {P : Type} (weighted_sum : P → P → ℚ → ℚ → P)
    (image : Image P) (color : P) (x y : ℕ) (style : FontStyle)
    (text : List Char) :
    emptyCollection.get_font_height = none ∧
    emptyCollection.layout text style = none ∧
    emptyCollection.get_text_len text = none ∧
    emptyCollection.layout [] style = none ∧
    emptyCollection.get_text_len [] = none ∧
    emptyCollection.draw_text_mut weighted_sum image color x y style text =
      none :=
  ⟨rfl, rfl, rfl, rfl, rfl, rfl⟩

/-! ### C6 -/

/-- C6: for every resolved glyph, the cursor advance is exactly
`ceil(advance.x / units_per_em * size)` (under the saturating `as u32`
cast), taking only the horizontal advance component and the resolving font
set's size; and a font reporting advance 600 font units with 1000 units
per em at size 20 contributes exactly `ceil(600/1000*20) = 12`. -/
theorem C6_cursor_advance (font : Font) (id : ℕ) :
    (∀ size : ℚ,
      FontCollection.get_glyph_width font id size =
        (min
          (max ⌈(font.advance id).1 / (font.metrics.units_per_em : ℚ) * size⌉ 0)
          4294967295).toNat) ∧
    (∀ (col : FontCollection) (style : FontStyle) (height : ℕ)
        (acc : ℕ × List PositionedGlyph) (c : Char) (imfont : ImageFont),
      col.glyph_for_char c style = some (some (id, imfont, font)) →
      ∃ glyphs, layoutStep col style height acc c =
        some (acc.1 + FontCollection.get_glyph_width font id imfont.size,
          glyphs)) ∧
    ((font.advance id).1 = 600 → font.metrics.units_per_em = 1000 →
      FontCollection.get_glyph_width font id 20 = 12) := by
  refine ⟨fun size => rfl, ?_, ?_⟩
  · intro col style height acc c imfont h
    unfold layoutStep
    rw [h]
    exact ⟨_, rfl⟩
  · intro h600 h1000
    unfold FontCollection.get_glyph_width
    rw [h600, h1000]
    exact f32ceil_as_u32_eval _ 12 (by norm_num)
      (by show ⌈(600 / ((1000 : ℕ) : ℚ) * 20)⌉ = 12
          rw [Int.ceil_eq_iff] ; norm_num)

/-- C6 witness: the concrete font reports advance (600, 0) with 1000 units
per em; at size 20 its per-character advance contribution is exactly 12. -/
theorem C6_witness : FontCollection.get_glyph_width testFont 1 20 = 12 :=
  (C6_cursor_advance testFont 1).2.2 rfl rfl

/-! ### C4 -/

/-- Folding `layoutStep` over characters none of which any font set
resolves leaves the accumulator untouched. -/
theorem foldlM_layoutStep_skip (col : FontCollection) (style : FontStyle)
    (height : ℕ) (text : List Char)
    (h : ∀ c ∈ text, col.glyph_for_char c style = some none) :
    ∀ acc, List.foldlM (layoutStep col style height) acc text = some acc := by
  induction text with
  | nil => intro acc; rfl
  | cons a l ih =>
    intro acc
    have ha : layoutStep col style height acc a = some acc := by
      unfold layoutStep
      rw [h a (List.mem_cons_self a l)]
    show (layoutStep col style height acc a).bind _ = _
    rw [ha]
    exact ih (fun c hc => h c (List.mem_cons_of_mem _ hc)) acc

/-- C4: a character no font set in the chain resolves is skipped — the
layout fold step returns the accumulator unchanged (cursor unchanged, no
positioned glyph emitted) and layout continues; consequently, on a chain
whose height is defined, a text consisting solely of such characters lays
out to the empty glyph sequence with total advance width 0. -/
theorem C4_unresolved_skipped (col : FontCollection) (style : FontStyle)
    (text : List Char) (height : ℕ)
    (hh : col.get_font_height = some height)
    (hall : ∀ c ∈ text, col.glyph_for_char c style = some none) :
    (∀ acc, ∀ c ∈ text, layoutStep col style height acc c = some acc) ∧
    col.layout text style = some ([], 0) := by
  constructor
  · intro acc c hc
    unfold layoutStep
    rw [hall c hc]
  · unfold FontCollection.layout
    rw [hh]
    show (List.foldlM (layoutStep col style height) (0, []) text).bind _ = _
    rw [foldlM_layoutStep_skip col style height text hall (0, [])]
    rfl

/-- C4 witness: `z` is unsupported by the concrete chain, so a text of
only `z` characters lays out to no glyphs and width 0. -/
theorem C4_witness :
    testCollection.layout ['z', 'z'] FontStyle.REGULAR = some ([], 0) :=
  (C4_unresolved_skipped testCollection FontStyle.REGULAR ['z', 'z'] 20
    testCollection_height
    (fun c hc => by
      rcases List.mem_cons.mp hc with rfl | hc2
      · exact testCollection_glyph_z
      · rw [List.mem_singleton.mp hc2]
        exact testCollection_glyph_z)).2

/-! ### C3 -/

/-- A successful hit of the `glyph_for_char` loop decomposes the chain:
the hit font set comes after a prefix of font sets whose style-resolved
fonts all lack the character. -/
theorem glyphForCharAux_some_spec (c : Char) (style : FontStyle) :
    ∀ (fonts : List ImageFont) (id : ℕ) (imfont : ImageFont) (font : Font),
      glyphForCharAux fonts c style = some (some (id, imfont, font)) →
      ∃ pre rest, fonts = pre ++ imfont :: rest ∧
        imfont.get_by_style style = some font ∧
        font.glyph_for_char c = some id ∧
        ∀ g ∈ pre, ∃ gf, g.get_by_style style = some gf ∧
          gf.glyph_for_char c = none := by
  intro fonts
  induction fonts with
  | nil => intro id imfont font h; exact absurd h (by simp [glyphForCharAux])
  | cons a l ih =>
    intro id imfont font h
    unfold glyphForCharAux at h
    split at h
    · exact absurd h (by simp)
    · split at h
      · rename_i x1 result hgs x2 i hg
        simp only [Option.some.injEq, Prod.mk.injEq] at h
        obtain ⟨rfl, rfl, rfl⟩ := h
        exact ⟨[], l, rfl, hgs, hg, by intro g hmem; exact absurd hmem (by simp)⟩
      · rename_i x1 result hgs x2 hg
        obtain ⟨pre, rest, hf, hsty, hglyph, hmiss⟩ := ih id imfont font h
        refine ⟨a :: pre, rest, by rw [hf] ; rfl, hsty, hglyph, ?_⟩
        intro g hmem
        rcases List.mem_cons.mp hmem with rfl | hmem2
        · exact ⟨result, hgs, hg⟩
        · exact hmiss g hmem2

/-- The `glyph_for_char` loop returns "not found" exactly when every font
set's style-resolved font lacks the character (with no font set panicking
on the way). -/
theorem glyphForCharAux_none_spec (c : Char) (style : FontStyle) :
    ∀ fonts : List ImageFont,
      glyphForCharAux fonts c style = some none ↔
        ∀ g ∈ fonts, ∃ gf, g.get_by_style style = some gf ∧
          gf.glyph_for_char c = none := by
  intro fonts
  induction fonts with
  | nil => simp [glyphForCharAux]
  | cons a l ih =>
    constructor
    · intro h
      unfold glyphForCharAux at h
      split at h
      · exact absurd h (by simp)
      · split at h
        · exact absurd h (by simp)
        · rename_i x1 result hgs x2 hg
          intro g hmem
          rcases List.mem_cons.mp hmem with rfl | hmem2
          · exact ⟨result, hgs, hg⟩
          · exact (ih.mp h) g hmem2
    · intro hall
      obtain ⟨gf, hgs, hg⟩ := hall a (List.mem_cons_self a l)
      show glyphForCharAux (a :: l) c style = some none
      unfold glyphForCharAux
      rw [hgs]
      show (match gf.glyph_for_char c with
        | some id => some (some (id, a, gf))
        | none => glyphForCharAux l c style) = some none
      rw [hg]
      exact ih.mpr (fun g hmem => hall g (List.mem_cons_of_mem _ hmem))

/-- C3: glyph resolution walks font sets in chain order, resolving the
requested style within each set with `REGULAR` as the fallback for an
absent style; it returns the glyph id, owning font set and resolved font
of the first set whose resolved font has a glyph for the character (all
earlier sets resolved to fonts lacking it), and returns "none found"
exactly when every set's resolved font lacks the character. -/
theorem C3_first_hit_resolution (col : FontCollection) (c : Char)
    (style : FontStyle) :
    (∀ (f : ImageFont) (font : Font),
      f.get_by_style style = some font ↔
        (f.fonts style = some font ∨
          (f.fonts style = none ∧ f.fonts FontStyle.REGULAR = some font))) ∧
    (∀ (id : ℕ) (imfont : ImageFont) (font : Font),
      col.glyph_for_char c style = some (some (id, imfont, font)) →
      ∃ pre rest, col.fonts = pre ++ imfont :: rest ∧
        imfont.get_by_style style = some font ∧
        font.glyph_for_char c = some id ∧
        ∀ g ∈ pre, ∃ gf, g.get_by_style style = some gf ∧
          gf.glyph_for_char c = none) ∧
    (col.glyph_for_char c style = some none ↔
      ∀ g ∈ col.fonts, ∃ gf, g.get_by_style style = some gf ∧
        gf.glyph_for_char c = none) := by
  refine ⟨?_, ?_, ?_⟩
  · intro f font
    unfold ImageFont.get_by_style
    cases hs : f.fonts style with
    | some fs =>
      constructor
      · intro h; exact Or.inl h
      · intro h
        rcases h with h | ⟨h1, _⟩
        · exact h
        · exact absurd h1 (by simp)
    | none =>
      constructor
      · intro h; exact Or.inr ⟨rfl, h⟩
      · intro h
        rcases h with h | ⟨_, h2⟩
        · exact absurd h (by simp)
        · exact h2
  · exact glyphForCharAux_some_spec c style col.fonts
  · exact glyphForCharAux_none_spec c style col.fonts

/-- C3 witness: on the concrete chain, resolving `z` (no glyph anywhere)
returns "none found". -/
theorem C3_witness :
    testCollection.glyph_for_char 'z' FontStyle.REGULAR = some none :=
  (C3_first_hit_resolution testCollection 'z' FontStyle.REGULAR).2.2.mpr
    (fun g hmem => by
      rw [List.mem_singleton.mp hmem]
      exact ⟨testFont, rfl, rfl⟩)

/-! ### C5 -/

/-- The per-font height list succeeds exactly by computing every font
set's own height, in order; membership transfers both ways. -/
theorem fontHeights_spec :
    ∀ (fonts : List ImageFont) (hs : List ℕ), fontHeights fonts = some hs →
      (∀ f ∈ fonts, ∃ hf, f.get_font_height = some hf ∧ hf ∈ hs) ∧
      (∀ v ∈ hs, ∃ f ∈ fonts, f.get_font_height = some v) := by
  intro fonts
  induction fonts with
  | nil =>
    intro hs h
    obtain rfl : ([] : List ℕ) = hs := Option.some.inj h
    exact ⟨by simp, by simp⟩
  | cons a l ih =>
    intro hs h
    unfold fontHeights at h
    split at h
    · rename_i hf hl hha hhl
      obtain rfl := Option.some.inj h
      obtain ⟨ih1, ih2⟩ := ih hl hhl
      constructor
      · intro f hmem
        rcases List.mem_cons.mp hmem with rfl | hmem2
        · exact ⟨hf, hha, List.mem_cons_self _ _⟩
        · obtain ⟨v, hv, hvmem⟩ := ih1 f hmem2
          exact ⟨v, hv, List.mem_cons_of_mem _ hvmem⟩
      · intro v hmem
        rcases List.mem_cons.mp hmem with rfl | hmem2
        · exact ⟨a, List.mem_cons_self _ _, hha⟩
        · obtain ⟨f, hfmem, hfv⟩ := ih2 v hmem2
          exact ⟨f, List.mem_cons_of_mem _ hfmem, hfv⟩
    · exact absurd h (by simp)

/-- C5: a resolved character is positioned at
`x = delta_x + rasterBox.originX` (the cursor value before this
character's advance) and `y = chainHeight - rasterBox.height -
rasterBox.originY`; `layout` threads the one chain height into every step;
and that chain height is the maximum of the per-font-set heights (some
font set attains it, every font set's own height is at most it), so fonts
of differing heights are aligned to the tallest, not to their own
height. -/
theorem C5_glyph_positioning (col : FontCollection) (style : FontStyle) :
    (∀ (height dx : ℕ) (glyphs : List PositionedGlyph) (c : Char) (id : ℕ)
        (imfont : ImageFont) (font : Font),
      col.glyph_for_char c style = some (some (id, imfont, font)) →
      dx < 2147483648 → height < 2147483648 →
      ∃ g, layoutStep col style height (dx, glyphs) c =
          some (dx + FontCollection.get_glyph_width font id imfont.size,
            glyphs ++ [g]) ∧
        g.position_x = (dx : ℤ) + (font.raster_bounds id imfont.size).origin_x ∧
        g.position_y = (height : ℤ) - (font.raster_bounds id imfont.size).height
          - (font.raster_bounds id imfont.size).origin_y) ∧
    (∀ (text : List Char) (height : ℕ), col.get_font_height = some height →
      col.layout text style =
        (List.foldlM (layoutStep col style height) (0, []) text).map
          (fun r => (r.2, r.1))) ∧
    (∀ height : ℕ, col.get_font_height = some height →
      (∀ f ∈ col.fonts, ∃ hf, f.get_font_height = some hf ∧ hf ≤ height) ∧
      ∃ f ∈ col.fonts, f.get_font_height = some height) := by
  refine ⟨?_, ?_, ?_⟩
  · intro height dx glyphs c id imfont font h hdx hheight
    refine ⟨⟨id, font, imfont.size,
      u32_as_i32 dx + (font.raster_bounds id imfont.size).origin_x,
      u32_as_i32 height - (font.raster_bounds id imfont.size).height
        - (font.raster_bounds id imfont.size).origin_y,
      font.raster_bounds id imfont.size⟩, ?_, ?_, ?_⟩
    · unfold layoutStep
      rw [h]
    · show u32_as_i32 dx + _ = _
      rw [u32_as_i32_small dx hdx]
    · show u32_as_i32 height - _ - _ = _
      rw [u32_as_i32_small height hheight]
  · intro text height hh
    unfold FontCollection.layout
    rw [hh]
    show (List.foldlM (layoutStep col style height) (0, []) text).bind _ = _
    cases List.foldlM (layoutStep col style height) (0, []) text with
    | none => rfl
    | some r => rfl
  · intro height hh
    unfold FontCollection.get_font_height at hh
    cases hfh : fontHeights col.fonts with
    | none => rw [hfh] at hh; exact absurd hh (by simp)
    | some hs =>
      rw [hfh] at hh
      have hmax : hs.max? = some height := hh
      obtain ⟨hmem, hle⟩ := List.max?_eq_some_iff'.mp hmax
      obtain ⟨hall, hof⟩ := fontHeights_spec col.fonts hs hfh
      constructor
      · intro f hf
        obtain ⟨v, hv, hvmem⟩ := hall f hf
        exact ⟨v, hv, hle v hvmem⟩
      · exact hof height hmem

/-- C5 witness: on the concrete chain (height 20), the glyph of `a` from
cursor 0 is positioned at `x = 0 + originX = 0`,
`y = 20 - height - originY = 16`. -/
theorem C5_witness :
    ∃ g, layoutStep testCollection FontStyle.REGULAR 20 (0, []) 'a' =
        some (0 + FontCollection.get_glyph_width testFont 1 testImageFont.size,
          [] ++ [g]) ∧
      g.position_x =
        ((0 : ℕ) : ℤ) + (testFont.raster_bounds 1 testImageFont.size).origin_x ∧
      g.position_y =
        ((20 : ℕ) : ℤ) - (testFont.raster_bounds 1 testImageFont.size).height
          - (testFont.raster_bounds 1 testImageFont.size).origin_y :=
  (C5_glyph_positioning testCollection FontStyle.REGULAR).1 20 0 [] 'a' 1
    testImageFont testFont testCollection_glyph_a (by norm_num) (by norm_num)

/-! ### C7 -/

/-- If the raster box has zero width or zero height, the pixel loop of
`draw` is empty: nothing is plotted. -/
theorem draw_plots_nil (g : PositionedGlyph) (offset : ℤ)
    (h : g.raster_rect.width = 0 ∨ g.raster_rect.height = 0) :
    (g.draw offset).plots = [] := by
  rcases h with h | h
  · unfold PositionedGlyph.draw
    simp [h]
  · unfold PositionedGlyph.draw
    simp [h]

/-- A raster box of zero width but positive height: the claim says `draw`
must skip the rasterization call for it. -/
def thinRect : RasterRect := ⟨0, 0, 0, 1⟩

def thinGlyph : PositionedGlyph := ⟨1, testFont, 20, 0, 16, thinRect⟩

/-- C7 counterexample: a positioned glyph whose raster box has zero width
(and height 1) — "zero width or zero height" per the claim — nonetheless
has the rasterization call made, because the code only skips when the
canvas size equals `(0, 0)` in both components. -/
theorem C7_counterexample :
    thinGlyph.raster_rect.width = 0 ∧
    (thinGlyph.draw 0).rasterize_called = true := by
  constructor
  · rfl
  · decide

/-- C7 (amended): the rasterization call is skipped exactly when the
raster box's width and height are BOTH zero (after the `as u32` cast) —
the whitespace case — not whenever one of them is; still, whenever the
width or the height is zero nothing is plotted (so nothing is drawn), and
the glyph nevertheless contributed its full measured advance width to the
layout cursor. -/
theorem C7_whitespace_skip (g : PositionedGlyph) (offset : ℤ) :
    ((g.draw offset).rasterize_called = false ↔
      (i32_as_u32 g.raster_rect.width = 0 ∧
        i32_as_u32 g.raster_rect.height = 0)) ∧
    (g.raster_rect.width = 0 ∨ g.raster_rect.height = 0 →
      (g.draw offset).plots = []) ∧
    (∀ (col : FontCollection) (style : FontStyle) (height dx : ℕ)
        (glyphs : List PositionedGlyph) (c : Char) (imfont : ImageFont)
        (font : Font),
      col.glyph_for_char c style = some (some (g.id, imfont, font)) →
      ∃ gs, layoutStep col style height (dx, glyphs) c =
        some (dx + FontCollection.get_glyph_width font g.id imfont.size,
          gs)) := by
  refine ⟨?_, draw_plots_nil g offset, ?_⟩
  · show (!(i32_as_u32 g.raster_rect.width == 0 &&
      i32_as_u32 g.raster_rect.height == 0)) = false ↔ _
    simp
  · intro col style height dx glyphs c imfont font h
    unfold layoutStep
    rw [h]
    exact ⟨_, rfl⟩

/-- The all-zero raster box a whitespace glyph gets. -/
def whitespaceGlyph : PositionedGlyph := ⟨2, testFont, 20, 24, 16, ⟨0, 0, 0, 0⟩⟩

/-- C7 witness: for the all-zero (whitespace) raster box the rasterization
call is skipped and nothing is plotted. -/
theorem C7_witness :
    (whitespaceGlyph.draw (-5)).rasterize_called = false ∧
    (whitespaceGlyph.draw (-5)).plots = [] :=
  ⟨((C7_whitespace_skip whitespaceGlyph (-5)).1).mpr ⟨rfl, rfl⟩,
    (C7_whitespace_skip whitespaceGlyph (-5)).2.1 (Or.inl rfl)⟩

/-! ### C8 -/

/-- Every plot `draw` reports lies at `position + (col, row)` (plus the
baseline offset on y) for a row/column inside the raster box. -/
theorem draw_plots_mem (g : PositionedGlyph) (offset : ℤ) (p : ℤ × ℤ × ℚ)
    (h : p ∈ (g.draw offset).plots) :
    ∃ row col : ℕ, row < g.raster_rect.height.toNat ∧
      col < g.raster_rect.width.toNat ∧
      p.1 = g.position_x + (col : ℤ) ∧
      p.2.1 = g.position_y + (row : ℤ) + offset := by
  unfold PositionedGlyph.draw at h
  simp only [List.mem_flatMap, List.mem_reverse, List.mem_range,
    List.mem_map] at h
  obtain ⟨row, hrow, col, hcol, hp⟩ := h
  exact ⟨row, col, hrow, hcol, by rw [← hp], by rw [← hp]⟩

/-- Every entry the plot-fold appends to the write trace comes from a
plot whose coverage exceeds the epsilon, at the wrapped-cast coordinates
of that plot. -/
theorem drawPlotStep_trace {P : Type} (weighted_sum : P → P → ℚ → ℚ → P)
    (color : P) (x y : ℕ) :
    ∀ (plots : List (ℤ × ℤ × ℚ)) (acc : Image P × List (ℕ × ℕ × P))
      (wr : ℕ × ℕ × P),
      wr ∈ (plots.foldl (drawPlotStep weighted_sum color x y) acc).2 →
      wr ∈ acc.2 ∨ ∃ p ∈ plots, ¬ p.2.2 ≤ f32Epsilon ∧
        wr.1 = i32_as_u32 (p.1 + u32_as_i32 x) ∧
        wr.2.1 = i32_as_u32 (p.2.1 + u32_as_i32 y) := by
  intro plots
  induction plots with
  | nil => intro acc wr h; exact Or.inl h
  | cons p l ih =>
    intro acc wr h
    rw [List.foldl_cons] at h
    rcases ih _ wr h with hacc | ⟨q, hq, hqe, hqx, hqy⟩
    · unfold drawPlotStep at hacc
      by_cases hv : p.2.2 ≤ f32Epsilon
      · rw [if_pos hv] at hacc
        exact Or.inl hacc
      · rw [if_neg hv] at hacc
        rcases List.mem_append.mp hacc with h1 | h2
        · exact Or.inl h1
        · rw [List.mem_singleton.mp h2]
          exact Or.inr ⟨p, List.mem_cons_self p l, hv, rfl, rfl⟩
    · exact Or.inr ⟨q, List.mem_cons_of_mem _ hq, hqe, hqx, hqy⟩

/-- Every entry the glyph-fold appends to the write trace comes from some
glyph's plot whose coverage exceeds the epsilon. -/
theorem drawGlyphStep_trace {P : Type} (weighted_sum : P → P → ℚ → ℚ → P)
    (color : P) (x y : ℕ) (offset : ℤ) :
    ∀ (glyphs : List PositionedGlyph) (acc : Image P × List (ℕ × ℕ × P))
      (wr : ℕ × ℕ × P),
      wr ∈ (glyphs.foldl (drawGlyphStep weighted_sum color x y offset) acc).2 →
      wr ∈ acc.2 ∨ ∃ g ∈ glyphs, ∃ p ∈ (g.draw offset).plots,
        ¬ p.2.2 ≤ f32Epsilon ∧
        wr.1 = i32_as_u32 (p.1 + u32_as_i32 x) ∧
        wr.2.1 = i32_as_u32 (p.2.1 + u32_as_i32 y) := by
  intro glyphs
  induction glyphs with
  | nil => intro acc wr h; exact Or.inl h
  | cons g l ih =>
    intro acc wr h
    rw [List.foldl_cons] at h
    rcases ih _ wr h with hacc | ⟨g2, hg2, hrest⟩
    · rcases drawPlotStep_trace weighted_sum color x y _ _ wr hacc with
        h1 | ⟨p, hp, hrest⟩
      · exact Or.inl h1
      · exact Or.inr ⟨g, List.mem_cons_self g l, p, hp, hrest⟩
    · exact Or.inr ⟨g2, List.mem_cons_of_mem _ hg2, hrest⟩

/-- C8: `draw_text_mut` computes one baseline offset
`round(descent / units_per_em * size)` from the FIRST font set in the
chain's `REGULAR` metrics and size, and every pixel it writes has exactly
that offset added into its y coordinate — whichever font set in the chain
resolved the glyph the pixel belongs to. -/
theorem C8_single_baseline_offset {P : Type}
    (weighted_sum : P → P → ℚ → ℚ → P) (col : FontCollection)
    (image : Image P) (color : P) (x y : ℕ) (style : FontStyle)
    (text : List Char) (first : ImageFont) (font0 : Font)
    (glyphs : List PositionedGlyph) (width : ℕ)
    (h1 : col.fonts.head? = some first)
    (h2 : first.get_regular = some font0)
    (h3 : col.layout text style = some (glyphs, width)) :
    ∃ r, col.draw_text_mut weighted_sum image color x y style text = some r ∧
      r.2.2 = width ∧
      ∀ wr ∈ r.2.1, ∃ g ∈ glyphs, ∃ row colp : ℕ,
        row < g.raster_rect.height.toNat ∧
        colp < g.raster_rect.width.toNat ∧
        wr.1 = i32_as_u32 (g.position_x + (colp : ℤ) + u32_as_i32 x) ∧
        wr.2.1 = i32_as_u32 (g.position_y + (row : ℤ) +
          f32round_as_i32 (font0.metrics.descent /
            (font0.metrics.units_per_em : ℚ) * first.size) + u32_as_i32 y) := by
  unfold FontCollection.draw_text_mut
  rw [h1]
  simp only [Option.bind_eq_bind, Option.some_bind]
  rw [h2]
  simp only [Option.bind_eq_bind, Option.some_bind]
  rw [h3]
  simp only [Option.bind_eq_bind, Option.some_bind]
  refine ⟨_, rfl, rfl, ?_⟩
  intro wr hwr
  rcases drawGlyphStep_trace weighted_sum color x y _ glyphs (image, []) wr hwr
    with habs | ⟨g, hg, p, hp, hpe, hpx, hpy⟩
  · exact absurd habs (by simp)
  · obtain ⟨row, colp, hrow, hcol, hx, hy⟩ := draw_plots_mem g _ p hp
    refine ⟨g, hg, row, colp, hrow, hcol, ?_, ?_⟩
    · rw [hpx, hx]
    · rw [hpy, hy]

/-- A concrete rational-pixel instantiation of
`imageproc::pixelops::weighted_sum`. -/
def ratWeightedSum : ℚ → ℚ → ℚ → ℚ → ℚ := fun p c wp wc => p * wp + c * wc

/-- An all-zero ("black") destination image over rational pixels. -/
def blackImage : Image ℚ := ⟨fun _ _ => 0⟩

/-- C8 witness: drawing `a` with the concrete chain at (0, 0) succeeds,
returns width 12, and every written pixel's y coordinate carries the one
baseline offset computed from the first (only) font set's REGULAR
metrics. -/
theorem C8_witness :
    ∃ r, testCollection.draw_text_mut ratWeightedSum blackImage 1 0 0
        FontStyle.REGULAR ['a'] = some r ∧
      r.2.2 = 12 ∧
      ∀ wr ∈ r.2.1, ∃ g ∈ [testGlyph], ∃ row colp : ℕ,
        row < g.raster_rect.height.toNat ∧
        colp < g.raster_rect.width.toNat ∧
        wr.1 = i32_as_u32 (g.position_x + (colp : ℤ) + u32_as_i32 0) ∧
        wr.2.1 = i32_as_u32 (g.position_y + (row : ℤ) +
          f32round_as_i32 (testFont.metrics.descent /
            (testFont.metrics.units_per_em : ℚ) * testImageFont.size) +
          u32_as_i32 0) :=
  C8_single_baseline_offset ratWeightedSum testCollection blackImage 1 0 0
    FontStyle.REGULAR ['a'] testImageFont testFont [testGlyph] 12 rfl rfl
    testLayout

/-! ### C10 -/

/-- Under the same non-panic hypotheses as C8, `draw_text_mut` equals the
glyph fold applied to the layout result with the first-font baseline
offset. -/
theorem draw_text_mut_eq {P : Type} (weighted_sum : P → P → ℚ → ℚ → P)
    (col : FontCollection) (image : Image P) (color : P) (x y : ℕ)
    (style : FontStyle) (text : List Char) (first : ImageFont) (font0 : Font)
    (glyphs : List PositionedGlyph) (width : ℕ)
    (h1 : col.fonts.head? = some first)
    (h2 : first.get_regular = some font0)
    (h3 : col.layout text style = some (glyphs, width)) :
    col.draw_text_mut weighted_sum image color x y style text =
      some
        ((glyphs.foldl
          (drawGlyphStep weighted_sum color x y
            (f32round_as_i32 (font0.metrics.descent /
              (font0.metrics.units_per_em : ℚ) * first.size)))
          (image, [])).1,
        (glyphs.foldl
          (drawGlyphStep weighted_sum color x y
            (f32round_as_i32 (font0.metrics.descent /
              (font0.metrics.units_per_em : ℚ) * first.size)))
          (image, [])).2,
        width) := by
  unfold FontCollection.draw_text_mut
  rw [h1]
  simp only [Option.bind_eq_bind, Option.some_bind]
  rw [h2]
  simp only [Option.bind_eq_bind, Option.some_bind]
  rw [h3]
  simp only [Option.bind_eq_bind, Option.some_bind]
  rfl

/-- A font whose raster box starts one pixel left of the pen position
(`origin.x = -1`), as italic overhangs commonly do. -/
def negRect : RasterRect := ⟨-1, 0, 1, 1⟩

def negFont : Font where
  glyph_for_char := fun c => if c = 'n' then some 1 else none
  metrics := ⟨800, -200, 1000⟩
  advance := fun _ => (600, 0)
  raster_bounds := fun _ _ => negRect
  rasterize_glyph := fun _ _ _ _ _ => 255

def negImageFont : ImageFont where
  fonts := fun s => if s = FontStyle.REGULAR then some negFont else none
  size := 10

def negCollection : FontCollection := ⟨[negImageFont]⟩

theorem negImageFont_height : negImageFont.get_font_height = some 10 := by
  show some (f32ceil_as_u32 ((800 - (-200 : ℚ)) / 1000 * 10)) = some 10
  rw [f32ceil_as_u32_eval _ 10 (by norm_num)
    (by rw [Int.ceil_eq_iff] ; norm_num)]

theorem negCollection_height : negCollection.get_font_height = some 10 := by
  show (fontHeights [negImageFont]).bind List.max? = some 10
  rw [show fontHeights [negImageFont] = some [10] by
    simp [fontHeights, negImageFont_height]]
  rfl

theorem negCollection_glyph_n :
    negCollection.glyph_for_char 'n' FontStyle.REGULAR =
      some (some (1, negImageFont, negFont)) := rfl

theorem negFont_glyph_width :
    FontCollection.get_glyph_width negFont 1 10 = 6 := by
  unfold FontCollection.get_glyph_width
  exact f32ceil_as_u32_eval _ 6 (by norm_num)
    (by show ⌈(600 / (1000 : ℚ) * 10)⌉ = 6; rw [Int.ceil_eq_iff] ; norm_num)

/-- The glyph `layout` produces for `n` on `negCollection`: cursor 0, so
`x = 0 + (-1) = -1`, `y = 10 - 1 - 0 = 9`. -/
def negGlyph : PositionedGlyph :=
  ⟨1, negFont, 10, -1, 9, negRect⟩

theorem negLayout :
    negCollection.layout ['n'] FontStyle.REGULAR = some ([negGlyph], 6) := by
  unfold FontCollection.layout
  rw [negCollection_height]
  show (List.foldlM (layoutStep negCollection FontStyle.REGULAR 10) (0, []) ['n']).bind
    (fun r => some (r.2, r.1)) = some ([negGlyph], 6)
  have hstep : layoutStep negCollection FontStyle.REGULAR 10 (0, []) 'n' =
      some (6, [negGlyph]) := by
    unfold layoutStep
    rw [negCollection_glyph_n]
    show some (0 + FontCollection.get_glyph_width negFont 1 10, _) = _
    rw [negFont_glyph_width]
    rfl
  show (layoutStep negCollection FontStyle.REGULAR 10 (0, []) 'n').bind _ = _
  rw [hstep]
  rfl

theorem negOffset :
    f32round_as_i32 (negFont.metrics.descent /
      (negFont.metrics.units_per_em : ℚ) * negImageFont.size) = -2 := by
  show f32round_as_i32 ((-200 : ℚ) / ((1000 : ℕ) : ℚ) * 10) = -2
  unfold f32round_as_i32
  rw [show roundHalfAway ((-200 : ℚ) / ((1000 : ℕ) : ℚ) * 10) = -2 by
    unfold roundHalfAway
    rw [if_neg (by norm_num)]
    rw [Int.ceil_eq_iff] ; norm_num]
  rfl

theorem negPlots : (negGlyph.draw (-2)).plots = [(-1, 7, 1)] := by
  unfold PositionedGlyph.draw
  norm_num [negGlyph, negRect, negFont, i32_as_u32, List.range_succ]

/-- The pixel value written at the wrapped coordinate in the C10 run. -/
def negVal : ℚ := ratWeightedSum (blackImage.pixel 4294967295 7) 1 (1 - 1) 1

/-- The image state after the C10 run's single write. -/
def negImg : Image ℚ := blackImage.put_pixel 4294967295 7 negVal

/-- Full evaluation of the C10 drawing run: the caller passes `x = 0`,
the glyph's raster origin is −1, and the single written pixel lands at
x-coordinate `4294967295 = 2^32 − 1`. -/
theorem negDraw :
    negCollection.draw_text_mut ratWeightedSum blackImage 1 0 0
      FontStyle.REGULAR ['n'] = some (negImg, [(4294967295, 7, negVal)], 6) := by
  rw [draw_text_mut_eq ratWeightedSum negCollection blackImage 1 0 0
    FontStyle.REGULAR ['n'] negImageFont negFont [negGlyph] 6 rfl rfl negLayout,
    negOffset]
  rw [List.foldl_cons, List.foldl_nil]
  have hfold : (negGlyph.draw (-2)).plots.foldl
      (drawPlotStep ratWeightedSum 1 0 0) (blackImage, []) =
      (negImg, [(4294967295, 7, negVal)]) := by
    rw [negPlots, List.foldl_cons, List.foldl_nil]
    unfold drawPlotStep
    rw [if_neg (by norm_num [f32Epsilon])]
    have hpx : i32_as_u32 ((-1) + u32_as_i32 0) = 4294967295 := by decide
    have hpy : i32_as_u32 (7 + u32_as_i32 0) = 7 := by decide
    simp only [hpx, hpy]
    rfl
  unfold drawGlyphStep
  rw [hfold]

/-- C10: in `draw_text_mut` the absolute pixel coordinates are the
wrapping `i32 as u32` cast of `px + x` / `py + y` with no clipping — a
negative in-register value `z` lands at `2^32 + z`; and concretely, for a
caller position x = 0 (inside any real image) and a first glyph whose
raster box origin is −1, the run writes a pixel at x-coordinate
`4294967295 = 2^32 − 1`, far outside the image, instead of skipping it. -/
theorem C10_wrapping_unclipped_coordinates :
    (∀ z : ℤ, -2147483648 ≤ z → z < 0 →
      (i32_as_u32 z : ℤ) = 4294967296 + z) ∧
    ∃ r, negCollection.draw_text_mut ratWeightedSum blackImage 1 0 0
        FontStyle.REGULAR ['n'] = some r ∧
      ∃ wr ∈ r.2.1, wr.1 = 4294967295 := by
  constructor
  · intro z h1 h2
    unfold i32_as_u32
    rw [Int.toNat_of_nonneg (by omega)]
    omega
  · exact ⟨(negImg, [(4294967295, 7, negVal)], 6), negDraw,
      (4294967295, 7, negVal), List.mem_singleton.mpr rfl, rfl⟩

/-- C10 witness: the wrapped cast of the in-register coordinate −1 is
`2^32 − 1`. -/
theorem C10_witness : (i32_as_u32 (-1) : ℤ) = 4294967296 + (-1) :=
  C10_wrapping_unclipped_coordinates.1 (-1) (by norm_num) (by norm_num)
